import Mathlib

/-!
Verification of the sliding-puzzle engine of this repository.

The engine lives in `src/src/app/components/ValentineExperience.tsx`
(component `ValentineExperience`) and, in a variant that additionally keeps
a move counter, in `src/unnamed/part_001` (component `SlidingPuzzle`).
The puzzle logic (`initializePuzzle`, `shufflePuzzle`, `getValidMoves`,
`handleTileClick`, `checkIfSolved`) is textually identical in both files,
except that `SlidingPuzzle` also maintains a `moves` counter; we embed the
shared logic once and give the `SlidingPuzzle` click handler separately.

Conventions of the embedding:
* JavaScript numbers are embedded as `Nat` (all arithmetic in the engine is
  on non-negative integers and never overflows or goes below zero on the
  guarded paths).
* The React state (`tiles`, `isSolved`, and for `SlidingPuzzle` also
  `moves`) becomes an explicit state record; a click handler is a function
  from state and clicked tile to state.
* `Math.floor(Math.random() * len)` produces an arbitrary index `< len`;
  it is embedded as `choice i % len` for an arbitrary `choice : Nat → Nat`,
  quantified over, so results hold for every possible random stream.
* Array mutation `a[i].currentPosition = v` with `i = a.findIndex(...)`
  becomes `listModify` at `List.findIdx`.
-/

namespace SlidingPuzzle

/-- A puzzle tile: `interface Tile { id: number; currentPosition: number }`. -/
structure Tile where
  id : Nat
  currentPosition : Nat
deriving DecidableEq, Repr

/-- The board is the tile collection (`tiles` state array). -/
abbrev Board := List Tile

/-- `getValidMoves(position, gridSize)` from the source: orthogonal
neighbour cells of `position`, pushed in the order up, down, left, right. -/
def getValidMoves (position gridSize : Nat) : List Nat :=
  let row := position / gridSize
  let col := position % gridSize
  (if row > 0 then [position - gridSize] else []) ++
  (if row < gridSize - 1 then [position + gridSize] else []) ++
  (if col > 0 then [position - 1] else []) ++
  (if col < gridSize - 1 then [position + 1] else [])

/-- The pure value computed by `checkIfSolved`:
`currentTiles.every(tile => tile.id === tile.currentPosition)`. -/
def checkIfSolved (currentTiles : Board) : Bool :=
  currentTiles.all fun tile => tile.id == tile.currentPosition

/-- `initialTiles` from `initializePuzzle`:
`Array.from({length: totalTiles}, (_, i) => ({id: i, currentPosition: i}))`. -/
def initialTiles (gridSize : Nat) : Board :=
  (List.range (gridSize * gridSize)).map fun i => { id := i, currentPosition := i }

/-- In-place update of the element at index `i` (a no-op when out of
bounds); embeds `a[i].currentPosition = v` style mutation. -/
def listModify (b : Board) (i : Nat) (f : Tile → Tile) : Board :=
  match b[i]? with
  | some t => b.set i (f t)
  | none => b

/-- One iteration of the `shufflePuzzle` loop body:
```
const blankIndex = shuffled.findIndex(t => t.currentPosition === blankPos);
const tileIndex  = shuffled.findIndex(t => t.currentPosition === randomMove);
shuffled[blankIndex].currentPosition = randomMove;
shuffled[tileIndex].currentPosition = blankPos;
```
(both indices are computed before the mutations). -/
def shuffleStep (b : Board) (blankPos randomMove : Nat) : Board :=
  listModify
    (listModify b (b.findIdx fun t => t.currentPosition == blankPos)
      fun t => { t with currentPosition := randomMove })
    (b.findIdx fun t => t.currentPosition == randomMove)
    fun t => { t with currentPosition := blankPos }

/-- The `for (let i = 0; i < 100; i++)` loop of `shufflePuzzle`, with the
loop state `(shuffled, blankPos)` made explicit; `steps` counts the
remaining iterations and `i` is the iteration index feeding the random
choice. -/
def shuffleAux (gridSize : Nat) (choice : Nat → Nat) : Nat → Nat → Board × Nat → Board × Nat
  | _, 0, st => st
  | i, steps+1, (shuffled, blankPos) =>
    let validMoves := getValidMoves blankPos gridSize
    let randomMove := validMoves.getD (choice i % validMoves.length) 0
    shuffleAux gridSize choice (i+1) steps (shuffleStep shuffled blankPos randomMove, randomMove)

/-- `shufflePuzzle(tiles)`: 100 random legal moves starting with the blank
tracked at its home cell `blankTileId = gridSize*gridSize - 1`. -/
def shufflePuzzle (gridSize : Nat) (choice : Nat → Nat) (tiles : Board) : Board :=
  (shuffleAux gridSize choice 0 100 (tiles, gridSize * gridSize - 1)).1

/-- React state of the `ValentineExperience` puzzle engine. -/
structure PuzzleState where
  tiles : Board
  isSolved : Bool
deriving DecidableEq, Repr

/-- `initializePuzzle()`: builds the identity board, shuffles it, stores it
and resets the solved flag (`setTiles(shuffled); setIsSolved(false)`). -/
def initializePuzzle (gridSize : Nat) (choice : Nat → Nat) : PuzzleState :=
  { tiles := shufflePuzzle gridSize choice (initialTiles gridSize)
    isSolved := false }

/-- The `tiles.map(...)` expression of the accepted branch of
`handleTileClick`: the clicked tile takes the blank's cell, the blank tile
takes the clicked tile's cell, all other tiles are returned unchanged. -/
def clickSwap (gridSize : Nat) (tiles : Board) (clickedTile blankTile : Tile) : Board :=
  tiles.map fun t =>
    if t.id = clickedTile.id then { t with currentPosition := blankTile.currentPosition }
    else if t.id = gridSize * gridSize - 1 then { t with currentPosition := clickedTile.currentPosition }
    else t

/-- `handleTileClick(clickedTile)` of `ValentineExperience`: no-op when
already solved; otherwise locate the blank tile, accept the click iff the
clicked tile's cell is a valid move from the blank's cell, and on
acceptance swap the two tiles and recompute the solved flag
(`checkIfSolved` only ever sets the flag to `true`).  The source asserts
the blank lookup with `!`; a missing blank (impossible on engine states)
is embedded as a no-op. -/
def handleTileClick (gridSize : Nat) (s : PuzzleState) (clickedTile : Tile) : PuzzleState :=
  if s.isSolved then s
  else
    match s.tiles.find? fun t => t.id == gridSize * gridSize - 1 with
    | none => s
    | some blankTile =>
      if clickedTile.currentPosition ∈ getValidMoves blankTile.currentPosition gridSize then
        let newTiles := clickSwap gridSize s.tiles clickedTile blankTile
        { tiles := newTiles
          isSolved := if checkIfSolved newTiles then true else s.isSolved }
      else s

/-- The board-level part of an attempted move (the spec's
`attemptMove(board, clickedTile)` restricted to its board result): same
blank lookup, adjacency test and swap as `handleTileClick`, without the
session flag. -/
def attemptMoveBoard (gridSize : Nat) (b : Board) (clickedTile : Tile) : Board :=
  match b.find? fun t => t.id == gridSize * gridSize - 1 with
  | none => b
  | some blankTile =>
    if clickedTile.currentPosition ∈ getValidMoves blankTile.currentPosition gridSize then
      clickSwap gridSize b clickedTile blankTile
    else b

/-- React state of the `SlidingPuzzle` engine of `src/unnamed/part_001`,
which additionally counts accepted moves. -/
structure SPState where
  tiles : Board
  isSolved : Bool
  moves : Nat
deriving DecidableEq, Repr

/-- `handleTileClick(clickedTile)` of `SlidingPuzzle`
(`src/unnamed/part_001`): identical to the `ValentineExperience` handler
except that an accepted move also runs `setMoves(m => m + 1)`. -/
def handleTileClickSP (gridSize : Nat) (s : SPState) (clickedTile : Tile) : SPState :=
  if s.isSolved then s
  else
    match s.tiles.find? fun t => t.id == gridSize * gridSize - 1 with
    | none => s
    | some blankTile =>
      if clickedTile.currentPosition ∈ getValidMoves blankTile.currentPosition gridSize then
        let newTiles := clickSwap gridSize s.tiles clickedTile blankTile
        { tiles := newTiles
          isSolved := if checkIfSolved newTiles then true else s.isSolved
          moves := s.moves + 1 }
      else s

/-- `initializePuzzle()` of `SlidingPuzzle`: as for `ValentineExperience`,
and also resets the move counter (`setMoves(0)`). -/
def initializePuzzleSP (gridSize : Nat) (choice : Nat → Nat) : SPState :=
  { tiles := shufflePuzzle gridSize choice (initialTiles gridSize)
    isSolved := false
    moves := 0 }

/-! ### Cell arithmetic and `getValidMoves` -/

theorem div_mod_of_decomp {N r c : Nat} (hN : 0 < N) (hc : c < N) :
    (N * r + c) / N = r ∧ (N * r + c) % N = c := by
  constructor
  · rw [Nat.mul_add_div hN, Nat.div_eq_of_lt hc]; omega
  · rw [Nat.mul_add_mod, Nat.mod_eq_of_lt hc]


theorem cell_lt {N s c : Nat} (hc : c < N) (hs : s + 1 ≤ N) : N * s + c < N * N :=
  calc N * s + c < N * s + N := by omega
  _ = N * (s + 1) := by ring
  _ ≤ N * N := Nat.mul_le_mul_left N hs

theorem mem_getValidMoves {q position gridSize : Nat} :
    q ∈ getValidMoves position gridSize ↔
      (0 < position / gridSize ∧ q = position - gridSize) ∨
      (position / gridSize < gridSize - 1 ∧ q = position + gridSize) ∨
      (0 < position % gridSize ∧ q = position - 1) ∨
      (position % gridSize < gridSize - 1 ∧ q = position + 1) := by
  simp only [getValidMoves, List.mem_append, List.mem_singleton]
  split_ifs <;> simp_all <;> omega

theorem getValidMoves_lt {q position gridSize : Nat}
    (hp : position < gridSize * gridSize)
    (hq : q ∈ getValidMoves position gridSize) : q < gridSize * gridSize := by
  rcases Nat.eq_zero_or_pos gridSize with h0 | hN
  · subst h0; omega
  have hd := Nat.div_add_mod position gridSize
  have hm : position % gridSize < gridSize := Nat.mod_lt _ hN
  have hdiv : position / gridSize < gridSize := (Nat.div_lt_iff_lt_mul hN).2 hp
  rw [mem_getValidMoves] at hq
  rcases hq with ⟨h1, h2⟩ | ⟨h1, h2⟩ | ⟨h1, h2⟩ | ⟨h1, h2⟩
  · omega
  · have hq' : q = gridSize * (position / gridSize + 1) + position % gridSize := by
      have : gridSize * (position / gridSize + 1) =
          gridSize * (position / gridSize) + gridSize := by ring
      omega
    rw [hq']
    exact cell_lt hm (by omega)
  · omega
  · have hq' : q = gridSize * (position / gridSize) + (position % gridSize + 1) := by omega
    rw [hq']
    exact cell_lt (by omega) (by omega)

theorem getValidMoves_symm {q position gridSize : Nat} (hN : 0 < gridSize)
    (hp : position < gridSize * gridSize)
    (hq : q ∈ getValidMoves position gridSize) :
    position ∈ getValidMoves q gridSize := by
  have hd := Nat.div_add_mod position gridSize
  have hm : position % gridSize < gridSize := Nat.mod_lt _ hN
  have hdiv : position / gridSize < gridSize := (Nat.div_lt_iff_lt_mul hN).2 hp
  rw [mem_getValidMoves] at hq
  rw [mem_getValidMoves]
  obtain ⟨r, hr⟩ : ∃ r, position / gridSize = r := ⟨_, rfl⟩
  obtain ⟨c, hc⟩ : ∃ c, position % gridSize = c := ⟨_, rfl⟩
  rw [hr] at hd hdiv hq
  rw [hc] at hd hm hq
  rcases hq with ⟨h1, h2⟩ | ⟨h1, h2⟩ | ⟨h1, h2⟩ | ⟨h1, h2⟩
  · -- q is the cell above: position comes back as its "down" neighbour
    obtain ⟨k, hk⟩ : ∃ k, r = k + 1 := ⟨r - 1, by omega⟩
    rw [hk] at hd hdiv
    have hmul : gridSize * (k + 1) = gridSize * k + gridSize := by ring
    have hq' : q = gridSize * k + c := by omega
    have hdm := div_mod_of_decomp (r := k) hN hm
    rw [← hq'] at hdm
    refine Or.inr (Or.inl ⟨?_, ?_⟩)
    · rw [hdm.1]; omega
    · omega
  · -- q is the cell below: position comes back as its "up" neighbour
    have hmul : gridSize * (r + 1) = gridSize * r + gridSize := by ring
    have hq' : q = gridSize * (r + 1) + c := by omega
    have hdm := div_mod_of_decomp (r := r + 1) hN hm
    rw [← hq'] at hdm
    refine Or.inl ⟨?_, ?_⟩
    · rw [hdm.1]; omega
    · omega
  · -- q is the cell to the left: position comes back as its "right" neighbour
    have hq' : q = gridSize * r + (c - 1) := by omega
    have hdm := div_mod_of_decomp (r := r) (c := c - 1) hN (by omega)
    rw [← hq'] at hdm
    refine Or.inr (Or.inr (Or.inr ⟨?_, ?_⟩))
    · rw [hdm.2]; omega
    · omega
  · -- q is the cell to the right: position comes back as its "left" neighbour
    have hq' : q = gridSize * r + (c + 1) := by omega
    have hdm := div_mod_of_decomp (r := r) (c := c + 1) hN (by omega)
    rw [← hq'] at hdm
    refine Or.inr (Or.inr (Or.inl ⟨?_, ?_⟩))
    · rw [hdm.2]; omega
    · omega

theorem self_not_mem_getValidMoves (position gridSize : Nat) :
    position ∉ getValidMoves position gridSize := by
  rw [mem_getValidMoves]
  rintro (⟨h1, h2⟩ | ⟨h1, h2⟩ | ⟨h1, h2⟩ | ⟨h1, h2⟩)
  · have hN : 0 < gridSize := by
      rcases Nat.eq_zero_or_pos gridSize with h | h
      · rw [h, Nat.div_zero] at h1; omega
      · exact h
    have hge : gridSize ≤ position := by
      by_contra hlt
      rw [Nat.div_eq_of_lt (by omega)] at h1; omega
    omega
  · have hN0 : gridSize = 0 := by omega
    rw [hN0, Nat.div_zero] at h1; omega
  · have := Nat.mod_le position gridSize
    omega
  · omega

theorem length_getValidMoves (position gridSize : Nat) :
    (getValidMoves position gridSize).length =
      (if 0 < position / gridSize then 1 else 0) +
      (if position / gridSize < gridSize - 1 then 1 else 0) +
      (if 0 < position % gridSize then 1 else 0) +
      (if position % gridSize < gridSize - 1 then 1 else 0) := by
  simp only [getValidMoves, List.length_append]
  split_ifs <;> simp

theorem getValidMoves_length_pos {position gridSize : Nat} (hN : 2 ≤ gridSize)
    (hp : position < gridSize * gridSize) :
    0 < (getValidMoves position gridSize).length := by
  rw [length_getValidMoves]
  have hdiv : position / gridSize < gridSize := (Nat.div_lt_iff_lt_mul (by omega)).2 hp
  split_ifs <;> omega

theorem getD_mem {l : List Nat} {i : Nat} (h : i < l.length) (d : Nat) :
    l.getD i d ∈ l := by
  induction l generalizing i with
  | nil => simp at h
  | cons x xs ih =>
    cases i with
    | zero => simp
    | succ n =>
      simp only [List.getD_cons_succ]
      exact List.mem_cons_of_mem x (ih (by simpa using h))

/-! ### Position-keyed swap and well-formed boards -/

/-- Exchange of two cell values, as a function on cell indices. -/
def swapFn (p q x : Nat) : Nat := if x = p then q else if x = q then p else x

/-- Exchange of the cells `p` and `q`, as a function on a single tile. -/
def swapTile (p q : Nat) (t : Tile) : Tile :=
  if t.currentPosition = p then { t with currentPosition := q }
  else if t.currentPosition = q then { t with currentPosition := p }
  else t

/-- Exchange the `currentPosition` values of the tile at cell `p` and the
tile at cell `q`, leaving every other tile unchanged.  On boards whose
occupied cells are distinct this is the net effect of both the
`shufflePuzzle` loop body and the accepted branch of `handleTileClick`. -/
def swapPosMap (b : Board) (p q : Nat) : Board := b.map (swapTile p q)

theorem swapFn_involutive (p q x : Nat) : swapFn p q (swapFn p q x) = x := by
  unfold swapFn; split_ifs <;> omega

theorem swapFn_lt {n p q x : Nat} (hp : p < n) (hq : q < n) (hx : x < n) :
    swapFn p q x < n := by
  unfold swapFn; split_ifs <;> omega

theorem swapTile_swapTile (p q : Nat) (t : Tile) :
    swapTile p q (swapTile p q t) = t := by
  rcases t with ⟨i, c⟩
  simp only [swapTile]
  split_ifs <;> simp_all

theorem swapTile_id (p q : Nat) (t : Tile) : (swapTile p q t).id = t.id := by
  simp only [swapTile]; split_ifs <;> rfl

theorem swapTile_pos (p q : Nat) (t : Tile) :
    (swapTile p q t).currentPosition = swapFn p q t.currentPosition := by
  simp only [swapTile, swapFn]; split_ifs <;> rfl

theorem swapPosMap_swapPosMap (b : Board) (p q : Nat) :
    swapPosMap (swapPosMap b p q) p q = b := by
  simp only [swapPosMap, List.map_map]
  have h : ∀ t ∈ b, (swapTile p q ∘ swapTile p q) t = id t :=
    fun t _ => swapTile_swapTile p q t
  rw [List.map_congr_left h, List.map_id]

theorem swapPosMap_map_id (b : Board) (p q : Nat) :
    (swapPosMap b p q).map Tile.id = b.map Tile.id := by
  simp only [swapPosMap, List.map_map]
  exact List.map_congr_left fun t _ => swapTile_id p q t

theorem swapPosMap_map_pos (b : Board) (p q : Nat) :
    (swapPosMap b p q).map Tile.currentPosition
      = (b.map Tile.currentPosition).map (swapFn p q) := by
  simp only [swapPosMap, List.map_map]
  exact List.map_congr_left fun t _ => swapTile_pos p q t

theorem map_swapFn_range_perm {n p q : Nat} (hp : p < n) (hq : q < n) :
    ((List.range n).map (swapFn p q)).Perm (List.range n) := by
  have hinj : Function.Injective (swapFn p q) := fun a b h => by
    have ha := swapFn_involutive p q a
    have hb := swapFn_involutive p q b
    rw [← ha, ← hb, h]
  refine (List.perm_ext_iff_of_nodup ((List.nodup_range n).map hinj)
    (List.nodup_range n)).2 ?_
  intro a
  simp only [List.mem_map, List.mem_range]
  constructor
  · rintro ⟨y, hy, rfl⟩; exact swapFn_lt hp hq hy
  · intro ha; exact ⟨swapFn p q a, swapFn_lt hp hq ha, swapFn_involutive p q a⟩

/-- Well-formed board for grid size `N`: the tile ids and the occupied
cells each enumerate the cells `0 .. N²-1` exactly once. -/
def WF (gridSize : Nat) (b : Board) : Prop :=
  (b.map Tile.id).Perm (List.range (gridSize * gridSize)) ∧
  (b.map Tile.currentPosition).Perm (List.range (gridSize * gridSize))

theorem WF.id_nodup {N : Nat} {b : Board} (h : WF N b) : (b.map Tile.id).Nodup :=
  h.1.nodup_iff.2 (List.nodup_range _)

theorem WF.pos_nodup {N : Nat} {b : Board} (h : WF N b) :
    (b.map Tile.currentPosition).Nodup :=
  h.2.nodup_iff.2 (List.nodup_range _)

theorem WF.exists_pos {N : Nat} {b : Board} (h : WF N b) {p : Nat} (hp : p < N * N) :
    ∃ t ∈ b, t.currentPosition = p := by
  have hmem : p ∈ b.map Tile.currentPosition := h.2.mem_iff.2 (List.mem_range.2 hp)
  obtain ⟨t, ht, he⟩ := List.mem_map.1 hmem
  exact ⟨t, ht, he⟩

theorem WF.swapPosMap_wf {N : Nat} {b : Board} {p q : Nat} (h : WF N b)
    (hp : p < N * N) (hq : q < N * N) : WF N (swapPosMap b p q) := by
  constructor
  · rw [swapPosMap_map_id]; exact h.1
  · rw [swapPosMap_map_pos]
    exact (h.2.map (swapFn p q)).trans (map_swapFn_range_perm hp hq)

/-- Two members of a board with no duplicate ids that agree on `id` are the
same tile. -/
theorem id_inj {b : Board} (hnd : (b.map Tile.id).Nodup) {t u : Tile}
    (ht : t ∈ b) (hu : u ∈ b) (he : t.id = u.id) : t = u :=
  List.inj_on_of_nodup_map hnd ht hu he

/-- Two members of a board with no duplicate cells that agree on
`currentPosition` are the same tile. -/
theorem pos_inj {b : Board} (hnd : (b.map Tile.currentPosition).Nodup) {t u : Tile}
    (ht : t ∈ b) (hu : u ∈ b) (he : t.currentPosition = u.currentPosition) : t = u :=
  List.inj_on_of_nodup_map hnd ht hu he

/-- Two positions of a board with no duplicate cells holding tiles on the
same cell are equal. -/
theorem pos_index_inj {b : Board} (hnd : (b.map Tile.currentPosition).Nodup)
    {k₁ k₂ : Nat} (h₁ : k₁ < b.length) (h₂ : k₂ < b.length)
    (he : (b.get ⟨k₁, h₁⟩).currentPosition = (b.get ⟨k₂, h₂⟩).currentPosition) :
    k₁ = k₂ := by
  have hinj := List.nodup_iff_injective_get.1 hnd
  have h₁' : k₁ < (b.map Tile.currentPosition).length := by
    rw [List.length_map]; exact h₁
  have h₂' : k₂ < (b.map Tile.currentPosition).length := by
    rw [List.length_map]; exact h₂
  have hfin : (⟨k₁, h₁'⟩ : Fin (b.map Tile.currentPosition).length) = ⟨k₂, h₂'⟩ := by
    apply hinj
    simpa [List.get_eq_getElem, List.getElem_map] using he
  exact congrArg Fin.val hfin

/-! ### The shuffle-loop body acts as a position swap -/

theorem listModify_of_lt {b : Board} {i : Nat} (h : i < b.length) (f : Tile → Tile) :
    listModify b i f = b.set i (f (b.get ⟨i, h⟩)) := by
  simp [listModify, List.getElem?_eq_getElem h, List.get_eq_getElem]

theorem shuffleStep_eq_swapPosMap {b : Board} {p q : Nat}
    (hnd : (b.map Tile.currentPosition).Nodup)
    (hp : ∃ t ∈ b, t.currentPosition = p)
    (hq : ∃ u ∈ b, u.currentPosition = q)
    (hne : p ≠ q) :
    shuffleStep b p q = swapPosMap b p q := by
  have hp' : ∃ t ∈ b, (fun t : Tile => t.currentPosition == p) t := by
    obtain ⟨t, ht, he⟩ := hp
    exact ⟨t, ht, by simp [he]⟩
  have hq' : ∃ t ∈ b, (fun t : Tile => t.currentPosition == q) t := by
    obtain ⟨t, ht, he⟩ := hq
    exact ⟨t, ht, by simp [he]⟩
  have hil : b.findIdx (fun t => t.currentPosition == p) < b.length :=
    List.findIdx_lt_length_of_exists hp'
  have hjl : b.findIdx (fun t => t.currentPosition == q) < b.length :=
    List.findIdx_lt_length_of_exists hq'
  have hpi : (b.get ⟨b.findIdx (fun t => t.currentPosition == p), hil⟩).currentPosition
      = p := by
    have := @List.findIdx_getElem _ (fun t => t.currentPosition == p) b hil
    simpa [List.get_eq_getElem] using this
  have hqj : (b.get ⟨b.findIdx (fun t => t.currentPosition == q), hjl⟩).currentPosition
      = q := by
    have := @List.findIdx_getElem _ (fun t => t.currentPosition == q) b hjl
    simpa [List.get_eq_getElem] using this
  set i := b.findIdx (fun t => t.currentPosition == p) with hidef
  set j := b.findIdx (fun t => t.currentPosition == q) with hjdef
  have hij : i ≠ j := by
    intro h
    have hgeq : b.get ⟨i, hil⟩ = b.get ⟨j, hjl⟩ := by
      congr 1
      exact Fin.ext h
    rw [hgeq, hqj] at hpi
    exact hne hpi.symm
  unfold shuffleStep
  rw [← hidef, ← hjdef]
  rw [listModify_of_lt hil]
  have hjl' : j < (b.set i { b.get ⟨i, hil⟩ with currentPosition := q }).length := by
    rw [List.length_set]; exact hjl
  rw [listModify_of_lt hjl']
  have hgj : (b.set i { b.get ⟨i, hil⟩ with currentPosition := q }).get ⟨j, hjl'⟩
      = b.get ⟨j, hjl⟩ := by
    simp [List.get_eq_getElem, List.getElem_set_ne hij]
  rw [hgj]
  apply List.ext_getElem?
  intro k
  by_cases hk : k < b.length
  · by_cases hkj : k = j
    · rw [hkj, List.getElem?_set_self hjl']
      have hrhsj : (swapPosMap b p q)[j]? = some (swapTile p q (b.get ⟨j, hjl⟩)) := by
        simp [swapPosMap, List.getElem?_eq_getElem hjl, List.get_eq_getElem]
      rw [hrhsj]
      have hswap : swapTile p q (b.get ⟨j, hjl⟩)
          = { b.get ⟨j, hjl⟩ with currentPosition := p } := by
        simp only [swapTile, hqj]
        rw [if_neg (Ne.symm hne)]
        simp
      rw [hswap]
    · by_cases hki : k = i
      · rw [hki, List.getElem?_set_ne (Ne.symm hij), List.getElem?_set_self hil]
        have hrhsi : (swapPosMap b p q)[i]? = some (swapTile p q (b.get ⟨i, hil⟩)) := by
          simp [swapPosMap, List.getElem?_eq_getElem hil, List.get_eq_getElem]
        rw [hrhsi]
        have hswap : swapTile p q (b.get ⟨i, hil⟩)
            = { b.get ⟨i, hil⟩ with currentPosition := q } := by
          simp only [swapTile, hpi]
          simp
        rw [hswap]
      · rw [List.getElem?_set_ne (fun h => hkj h.symm),
          List.getElem?_set_ne (fun h => hki h.symm),
          List.getElem?_eq_getElem hk]
        have hrhsk : (swapPosMap b p q)[k]? = some (swapTile p q (b.get ⟨k, hk⟩)) := by
          simp [swapPosMap, List.getElem?_eq_getElem hk, List.get_eq_getElem]
        rw [hrhsk]
        have hnp : (b.get ⟨k, hk⟩).currentPosition ≠ p := by
          intro h
          exact hki (pos_index_inj hnd hk hil (by rw [h, hpi]))
        have hnq : (b.get ⟨k, hk⟩).currentPosition ≠ q := by
          intro h
          exact hkj (pos_index_inj hnd hk hjl (by rw [h, hqj]))
        have hswap : swapTile p q (b.get ⟨k, hk⟩) = b.get ⟨k, hk⟩ := by
          simp only [swapTile]
          rw [if_neg hnp, if_neg hnq]
        rw [hswap, List.get_eq_getElem]
  · have h1 : ((b.set i { b.get ⟨i, hil⟩ with currentPosition := q }).set j
        { b.get ⟨j, hjl⟩ with currentPosition := p }).length ≤ k := by
      simp only [List.length_set]; omega
    have h2 : (swapPosMap b p q).length ≤ k := by
      simp only [swapPosMap, List.length_map]; omega
    rw [List.getElem?_eq_none h1, List.getElem?_eq_none h2]

/-! ### The accepted click acts as a position swap -/

theorem WF.pos_lt {N : Nat} {b : Board} (h : WF N b) {t : Tile} (ht : t ∈ b) :
    t.currentPosition < N * N := by
  have hmem : t.currentPosition ∈ b.map Tile.currentPosition :=
    List.mem_map_of_mem _ ht
  exact List.mem_range.1 (h.2.mem_iff.1 hmem)

theorem clickSwap_eq_swapPosMap {N : Nat} {b : Board} {clicked bt : Tile}
    (hWF : WF N b) (hc : clicked ∈ b)
    (hbt : b.find? (fun t => t.id == N * N - 1) = some bt) :
    clickSwap N b clicked bt
      = swapPosMap b clicked.currentPosition bt.currentPosition := by
  have hbtmem : bt ∈ b := List.mem_of_find?_eq_some hbt
  have hbtid : bt.id = N * N - 1 := by simpa using List.find?_some hbt
  unfold clickSwap swapPosMap
  apply List.map_congr_left
  intro t ht
  by_cases h1 : t.id = clicked.id
  · have hteq : t = clicked := id_inj hWF.id_nodup ht hc h1
    rw [if_pos h1, hteq]
    simp [swapTile]
  · rw [if_neg h1]
    by_cases h2 : t.id = N * N - 1
    · have hteq : t = bt := id_inj hWF.id_nodup ht hbtmem (by rw [h2, hbtid])
      have hne : bt.currentPosition ≠ clicked.currentPosition := by
        intro h
        have hbc : bt = clicked := pos_inj hWF.pos_nodup hbtmem hc h
        exact h1 (by rw [hteq, hbc])
      rw [if_pos h2, hteq]
      simp [swapTile, hne]
    · have hnp : t.currentPosition ≠ clicked.currentPosition := by
        intro h
        exact h1 (by rw [pos_inj hWF.pos_nodup ht hc h])
      have hnq : t.currentPosition ≠ bt.currentPosition := by
        intro h
        exact h2 (by rw [pos_inj hWF.pos_nodup ht hbtmem h, hbtid])
      rw [if_neg h2]
      simp [swapTile, hnp, hnq]

/-- On a board with distinct ids, `find?` locates the member with the blank
id. -/
theorem find?_blank {N : Nat} {b : Board} {t : Tile}
    (hnd : (b.map Tile.id).Nodup) (ht : t ∈ b) (hid : t.id = N * N - 1) :
    b.find? (fun x => x.id == N * N - 1) = some t := by
  have hs : (b.find? (fun x => x.id == N * N - 1)).isSome = true := by
    rw [List.find?_isSome]
    exact ⟨t, ht, by simp [hid]⟩
  obtain ⟨u, hu⟩ := Option.isSome_iff_exists.1 hs
  have humem := List.mem_of_find?_eq_some hu
  have huid : u.id = N * N - 1 := by simpa using List.find?_some hu
  rw [hu, id_inj hnd humem ht (by rw [huid, hid])]

/-! ### Unfolding the click handlers branch by branch -/

theorem handleTileClick_of_solved {N : Nat} {s : PuzzleState} (clicked : Tile)
    (hs : s.isSolved = true) : handleTileClick N s clicked = s := by
  simp [handleTileClick, hs]

theorem handleTileClick_of_none {N : Nat} {s : PuzzleState} (clicked : Tile)
    (hs : s.isSolved = false)
    (hbt : s.tiles.find? (fun t => t.id == N * N - 1) = none) :
    handleTileClick N s clicked = s := by
  simp [handleTileClick, hs, hbt]

theorem handleTileClick_of_notAdj {N : Nat} {s : PuzzleState} {clicked bt : Tile}
    (hs : s.isSolved = false)
    (hbt : s.tiles.find? (fun t => t.id == N * N - 1) = some bt)
    (hadj : clicked.currentPosition ∉ getValidMoves bt.currentPosition N) :
    handleTileClick N s clicked = s := by
  simp [handleTileClick, hs, hbt, hadj]

theorem handleTileClick_accepted {N : Nat} {s : PuzzleState} {clicked bt : Tile}
    (hs : s.isSolved = false)
    (hbt : s.tiles.find? (fun t => t.id == N * N - 1) = some bt)
    (hadj : clicked.currentPosition ∈ getValidMoves bt.currentPosition N) :
    handleTileClick N s clicked =
      { tiles := clickSwap N s.tiles clicked bt
        isSolved := checkIfSolved (clickSwap N s.tiles clicked bt) } := by
  simp only [handleTileClick, hs, hbt, if_neg Bool.false_ne_true]
  rw [if_pos hadj]
  cases hchk : checkIfSolved (clickSwap N s.tiles clicked bt) <;> simp [hchk]

theorem attemptMoveBoard_accepted {N : Nat} {b : Board} {clicked bt : Tile}
    (hbt : b.find? (fun t => t.id == N * N - 1) = some bt)
    (hadj : clicked.currentPosition ∈ getValidMoves bt.currentPosition N) :
    attemptMoveBoard N b clicked = clickSwap N b clicked bt := by
  simp [attemptMoveBoard, hbt, hadj]

/-! ### The shuffle loop invariant -/

/-- Invariant carried through the `shufflePuzzle` loop: the board is
well-formed, the tracked blank cell is a cell of the grid, and the blank
tile is exactly the tile occupying the tracked cell. -/
def ShInv (N : Nat) (st : Board × Nat) : Prop :=
  WF N st.1 ∧ st.2 < N * N ∧
    ∃ t ∈ st.1, t.id = N * N - 1 ∧ t.currentPosition = st.2

theorem shInv_step {N : Nat} {b : Board} {bp mv : Nat}
    (hinv : ShInv N (b, bp)) (hmv : mv ∈ getValidMoves bp N) :
    shuffleStep b bp mv = swapPosMap b bp mv ∧ ShInv N (shuffleStep b bp mv, mv) := by
  obtain ⟨hWF, hbp, t, ht, htid, htpos⟩ := hinv
  have hmvlt : mv < N * N := getValidMoves_lt hbp hmv
  have hne : bp ≠ mv := fun h => (self_not_mem_getValidMoves bp N) (h ▸ hmv)
  have heq : shuffleStep b bp mv = swapPosMap b bp mv :=
    shuffleStep_eq_swapPosMap hWF.pos_nodup ⟨t, ht, htpos⟩ (hWF.exists_pos hmvlt) hne
  refine ⟨heq, ?_, hmvlt, ?_⟩
  · rw [heq]; exact hWF.swapPosMap_wf hbp hmvlt
  · rw [heq]
    refine ⟨swapTile bp mv t, ?_, ?_, ?_⟩
    · exact List.mem_map_of_mem _ ht
    · rw [swapTile_id]; exact htid
    · rw [swapTile_pos, htpos]
      simp [swapFn]

/-- Generic invariant lemma for the shuffle loop: any property preserved by
a single legal shuffle step (alongside `ShInv`) holds after the whole
loop. -/
theorem shuffleAux_inv {N : Nat} (hN : 2 ≤ N) (choice : Nat → Nat)
    (motive : Board × Nat → Prop)
    (hstep : ∀ b bp mv, motive (b, bp) → ShInv N (b, bp) → mv ∈ getValidMoves bp N →
      motive (shuffleStep b bp mv, mv)) :
    ∀ steps i st, ShInv N st → motive st →
      ShInv N (shuffleAux N choice i steps st) ∧
      motive (shuffleAux N choice i steps st) := by
  intro steps
  induction steps with
  | zero => intro i st h1 h2; exact ⟨h1, h2⟩
  | succ n ih =>
    intro i st h1 h2
    obtain ⟨b, bp⟩ := st
    have hlen : 0 < (getValidMoves bp N).length :=
      getValidMoves_length_pos hN h1.2.1
    have hmv : (getValidMoves bp N).getD (choice i % (getValidMoves bp N).length) 0
        ∈ getValidMoves bp N :=
      getD_mem (Nat.mod_lt _ hlen) 0
    have hstep' := shInv_step h1 hmv
    have hmot := hstep b bp _ h2 h1 hmv
    exact ih (i + 1) _ hstep'.2 hmot

/-! ### The identity board -/

theorem initialTiles_map_id (N : Nat) :
    (initialTiles N).map Tile.id = List.range (N * N) := by
  simp [initialTiles, List.map_map, Function.comp_def]

theorem initialTiles_map_pos (N : Nat) :
    (initialTiles N).map Tile.currentPosition = List.range (N * N) := by
  simp [initialTiles, List.map_map, Function.comp_def]

theorem initialTiles_WF (N : Nat) : WF N (initialTiles N) := by
  constructor
  · rw [initialTiles_map_id]
  · rw [initialTiles_map_pos]

theorem shInv_init {N : Nat} (hN : 2 ≤ N) : ShInv N (initialTiles N, N * N - 1) := by
  have hpos : 0 < N * N := Nat.mul_pos (by omega) (by omega)
  refine ⟨initialTiles_WF N, by omega, ⟨N * N - 1, N * N - 1⟩, ?_, rfl, rfl⟩
  simp only [initialTiles, List.mem_map]
  exact ⟨N * N - 1, List.mem_range.2 (by omega), rfl⟩

theorem initialTiles_isIdentity (N : Nat) : ∀ t ∈ initialTiles N, t.currentPosition = t.id := by
  intro t ht
  simp only [initialTiles, List.mem_map] at ht
  obtain ⟨i, _, rfl⟩ := ht
  rfl

/-! ### Solvability by legal clicks -/

/-- Every tile occupies its home cell. -/
def IsIdentity (b : Board) : Prop := ∀ t ∈ b, t.currentPosition = t.id

/-- `CanSolve N b`: some finite sequence of clicks, each on a board tile
whose cell is among `getValidMoves` of the blank tile's current cell,
transforms `b` into the identity arrangement. -/
inductive CanSolve (N : Nat) : Board → Prop where
  | done {b : Board} : IsIdentity b → CanSolve N b
  | step {b : Board} (clicked bt : Tile)
      (hbt : b.find? (fun t => t.id == N * N - 1) = some bt)
      (hmem : clicked ∈ b)
      (hadj : clicked.currentPosition ∈ getValidMoves bt.currentPosition N)
      (h : CanSolve N (attemptMoveBoard N b clicked)) : CanSolve N b

/-- A legal position swap of the blank is undone by one legal click, so it
preserves solvability. -/
theorem canSolve_swapPosMap {N : Nat} {b : Board} {bp mv : Nat}
    (hinv : ShInv N (b, bp)) (hmv : mv ∈ getValidMoves bp N)
    (hcs : CanSolve N b) : CanSolve N (swapPosMap b bp mv) := by
  obtain ⟨hWF, hbp, t, ht, htid, htpos⟩ := hinv
  have hN0 : 0 < N := by
    rcases Nat.eq_zero_or_pos N with h | h
    · rw [h] at hbp; omega
    · exact h
  have hmvlt : mv < N * N := getValidMoves_lt hbp hmv
  have hWF' : WF N (swapPosMap b bp mv) := hWF.swapPosMap_wf hbp hmvlt
  obtain ⟨u, hu, hupos⟩ := hWF.exists_pos hmvlt
  have hne : bp ≠ mv := fun h => (self_not_mem_getValidMoves bp N) (h ▸ hmv)
  have hbt' : swapTile bp mv t ∈ swapPosMap b bp mv := List.mem_map_of_mem _ ht
  have hbtid' : (swapTile bp mv t).id = N * N - 1 := by rw [swapTile_id]; exact htid
  have hbtpos' : (swapTile bp mv t).currentPosition = mv := by
    rw [swapTile_pos, htpos]; simp [swapFn]
  have hfind : (swapPosMap b bp mv).find? (fun x => x.id == N * N - 1)
      = some (swapTile bp mv t) :=
    find?_blank hWF'.id_nodup hbt' hbtid'
  have hu' : swapTile bp mv u ∈ swapPosMap b bp mv := List.mem_map_of_mem _ hu
  have hu'pos : (swapTile bp mv u).currentPosition = bp := by
    rw [swapTile_pos, hupos]
    simp [swapFn, Ne.symm hne]
  have hadj : (swapTile bp mv u).currentPosition
      ∈ getValidMoves (swapTile bp mv t).currentPosition N := by
    rw [hu'pos, hbtpos']
    exact getValidMoves_symm hN0 hbp hmv
  refine CanSolve.step (swapTile bp mv u) (swapTile bp mv t) hfind hu' hadj ?_
  have hmove : attemptMoveBoard N (swapPosMap b bp mv) (swapTile bp mv u) = b := by
    rw [attemptMoveBoard_accepted hfind hadj]
    rw [clickSwap_eq_swapPosMap hWF' hu' hfind]
    rw [hu'pos, hbtpos']
    exact swapPosMap_swapPosMap b bp mv
  rw [hmove]
  exact hcs

theorem canSolve_shuffle {N : Nat} (hN : 2 ≤ N) (choice : Nat → Nat) :
    CanSolve N (shufflePuzzle N choice (initialTiles N)) := by
  have h := shuffleAux_inv hN choice (fun st => CanSolve N st.1)
    (fun b bp mv hm hi hmv => by
      have hs := shInv_step hi hmv
      show CanSolve N (shuffleStep b bp mv)
      rw [hs.1]
      exact canSolve_swapPosMap hi hmv hm)
    100 0 (initialTiles N, N * N - 1) (shInv_init hN)
    (CanSolve.done (initialTiles_isIdentity N))
  exact h.2

theorem shInv_shuffle {N : Nat} (hN : 2 ≤ N) (choice : Nat → Nat) :
    ShInv N (shuffleAux N choice 0 100 (initialTiles N, N * N - 1)) :=
  (shuffleAux_inv hN choice (fun _ => True) (fun _ _ _ _ _ _ => trivial)
    100 0 _ (shInv_init hN) trivial).1

/-! ### Reachable engine states -/

/-- Engine states arising in a `ValentineExperience` session: the state
right after `initializePuzzle`, and any state obtained from a reachable
state by clicking one of the board's tiles. -/
inductive EReach (N : Nat) (choice : Nat → Nat) : PuzzleState → Prop where
  | init : EReach N choice (initializePuzzle N choice)
  | click {s : PuzzleState} (t : Tile) (ht : t ∈ s.tiles) (hs : EReach N choice s) :
      EReach N choice (handleTileClick N s t)

theorem WF_handleTileClick {N : Nat} {s : PuzzleState} {clicked : Tile}
    (hWF : WF N s.tiles) (hc : clicked ∈ s.tiles) :
    WF N (handleTileClick N s clicked).tiles := by
  cases hs : s.isSolved with
  | true => rw [handleTileClick_of_solved clicked hs]; exact hWF
  | false =>
    cases hbt : s.tiles.find? (fun t => t.id == N * N - 1) with
    | none => rw [handleTileClick_of_none clicked hs hbt]; exact hWF
    | some bt =>
      by_cases hadj : clicked.currentPosition ∈ getValidMoves bt.currentPosition N
      · rw [handleTileClick_accepted hs hbt hadj]
        show WF N (clickSwap N s.tiles clicked bt)
        rw [clickSwap_eq_swapPosMap hWF hc hbt]
        exact hWF.swapPosMap_wf (hWF.pos_lt hc)
          (hWF.pos_lt (List.mem_of_find?_eq_some hbt))
      · rw [handleTileClick_of_notAdj hs hbt hadj]; exact hWF

theorem shufflePuzzle_eq (N : Nat) (choice : Nat → Nat) (tiles : Board) :
    shufflePuzzle N choice tiles
      = (shuffleAux N choice 0 100 (tiles, N * N - 1)).1 := by
  simp only [shufflePuzzle]

theorem initializePuzzle_tiles (N : Nat) (choice : Nat → Nat) :
    (initializePuzzle N choice).tiles = shufflePuzzle N choice (initialTiles N) := by
  simp only [initializePuzzle]

theorem initializePuzzle_isSolved (N : Nat) (choice : Nat → Nat) :
    (initializePuzzle N choice).isSolved = false := by
  simp only [initializePuzzle]

theorem EReach_WF {N : Nat} {choice : Nat → Nat} {s : PuzzleState} (hN : 2 ≤ N)
    (h : EReach N choice s) : WF N s.tiles := by
  induction h with
  | init =>
    rw [initializePuzzle_tiles, shufflePuzzle_eq]
    exact (shInv_shuffle hN choice).1
  | click t ht hs ih => exact WF_handleTileClick ih ht

/-! ### Unfolding the `SlidingPuzzle` click handler -/

theorem handleTileClickSP_of_solved {N : Nat} {s : SPState} (clicked : Tile)
    (hs : s.isSolved = true) : handleTileClickSP N s clicked = s := by
  simp [handleTileClickSP, hs]

theorem handleTileClickSP_of_none {N : Nat} {s : SPState} (clicked : Tile)
    (hs : s.isSolved = false)
    (hbt : s.tiles.find? (fun t => t.id == N * N - 1) = none) :
    handleTileClickSP N s clicked = s := by
  simp [handleTileClickSP, hs, hbt]

theorem handleTileClickSP_of_notAdj {N : Nat} {s : SPState} {clicked bt : Tile}
    (hs : s.isSolved = false)
    (hbt : s.tiles.find? (fun t => t.id == N * N - 1) = some bt)
    (hadj : clicked.currentPosition ∉ getValidMoves bt.currentPosition N) :
    handleTileClickSP N s clicked = s := by
  simp [handleTileClickSP, hs, hbt, hadj]

theorem handleTileClickSP_accepted {N : Nat} {s : SPState} {clicked bt : Tile}
    (hs : s.isSolved = false)
    (hbt : s.tiles.find? (fun t => t.id == N * N - 1) = some bt)
    (hadj : clicked.currentPosition ∈ getValidMoves bt.currentPosition N) :
    handleTileClickSP N s clicked =
      { tiles := clickSwap N s.tiles clicked bt
        isSolved := checkIfSolved (clickSwap N s.tiles clicked bt)
        moves := s.moves + 1 } := by
  simp only [handleTileClickSP, hs, hbt, if_neg Bool.false_ne_true]
  rw [if_pos hadj]
  cases hchk : checkIfSolved (clickSwap N s.tiles clicked bt) <;> simp [hchk]

/-! ### The claims -/

/-- C7: the solve detector is a pure function of the board: `checkIfSolved`
returns `true` iff every tile's `currentPosition` equals its `id`; in
particular a freshly constructed identity board is detected as solved. -/
theorem C7_checkIfSolved_iff_and_identity (b : Board) (N : Nat) :
    (checkIfSolved b = true ↔ ∀ t ∈ b, t.currentPosition = t.id) ∧
    checkIfSolved (initialTiles N) = true := by
  constructor
  · simp only [checkIfSolved, List.all_eq_true, beq_iff_eq]
    constructor
    · intro h t ht; exact (h t ht).symm
    · intro h t ht; exact (h t ht).symm
  · simp only [checkIfSolved, List.all_eq_true, beq_iff_eq]
    intro t ht
    exact (initialTiles_isIdentity N t ht).symm

/-- C3: `getValidMoves p N` returns exactly the in-bounds orthogonal
neighbours `p-N` (iff `row > 0`), `p+N` (iff `row < N-1`), `p-1`
(iff `col > 0`), `p+1` (iff `col < N-1`), in that order; hence 2 results
for corner cells, 3 for edge-non-corner cells and 4 for interior cells,
with the stated `N = 3` example values. -/
theorem C3_getValidMoves_spec (N p : Nat) (hN : 2 ≤ N) (hp : p < N * N) :
    (getValidMoves p N =
      (if 0 < p / N then [p - N] else []) ++
      (if p / N < N - 1 then [p + N] else []) ++
      (if 0 < p % N then [p - 1] else []) ++
      (if p % N < N - 1 then [p + 1] else [])) ∧
    (((p / N = 0 ∨ p / N = N - 1) ∧ (p % N = 0 ∨ p % N = N - 1)) →
      (getValidMoves p N).length = 2) ∧
    (((p / N = 0 ∨ p / N = N - 1) ↔ ¬(p % N = 0 ∨ p % N = N - 1)) →
      (getValidMoves p N).length = 3) ∧
    ((¬(p / N = 0 ∨ p / N = N - 1) ∧ ¬(p % N = 0 ∨ p % N = N - 1)) →
      (getValidMoves p N).length = 4) ∧
    getValidMoves 0 3 = [3, 1] ∧ getValidMoves 4 3 = [1, 7, 3, 5] ∧
    getValidMoves 8 3 = [5, 7] := by
  have hdiv : p / N < N := (Nat.div_lt_iff_lt_mul (by omega)).2 hp
  have hmod : p % N < N := Nat.mod_lt _ (by omega)
  obtain ⟨r, hr⟩ : ∃ r, p / N = r := ⟨_, rfl⟩
  obtain ⟨c, hc⟩ : ∃ c, p % N = c := ⟨_, rfl⟩
  rw [hr] at hdiv
  rw [hc] at hmod
  refine ⟨rfl, ?_, ?_, ?_, by decide, by decide, by decide⟩ <;>
    (intro h; rw [hr, hc] at h; rw [length_getValidMoves, hr, hc];
      split_ifs <;> omega)

/-- Witness for C3 at `N = 3`, `p = 4` (the interior cell of the 3×3
grid). -/
theorem C3_getValidMoves_spec_witness :
    2 ≤ 3 ∧ 4 < 3 * 3 ∧ (getValidMoves 4 3).length = 4 :=
  ⟨by decide, by decide,
    (C3_getValidMoves_spec 3 4 (by decide) (by decide)).2.2.2.1 (by decide)⟩

/-- C10: a cell is never among its own valid moves, so clicking the blank
tile itself is always a no-op: the engine state is unchanged. -/
theorem C10_blank_click_noop {N : Nat} (s : PuzzleState) (bt : Tile)
    (hbt : s.tiles.find? (fun t => t.id == N * N - 1) = some bt) :
    (∀ p M : Nat, p ∉ getValidMoves p M) ∧ handleTileClick N s bt = s := by
  refine ⟨fun p M => self_not_mem_getValidMoves p M, ?_⟩
  cases hs : s.isSolved with
  | true => exact handleTileClick_of_solved bt hs
  | false => exact handleTileClick_of_notAdj hs hbt (self_not_mem_getValidMoves _ N)

/-- Witness for C10 on the identity 2×2 board. -/
theorem C10_blank_click_noop_witness :
    (([⟨0, 0⟩, ⟨1, 1⟩, ⟨2, 2⟩, ⟨3, 3⟩] : Board).find?
        (fun t => t.id == 2 * 2 - 1) = some ⟨3, 3⟩) ∧
    handleTileClick 2 ⟨[⟨0, 0⟩, ⟨1, 1⟩, ⟨2, 2⟩, ⟨3, 3⟩], false⟩ ⟨3, 3⟩
      = ⟨[⟨0, 0⟩, ⟨1, 1⟩, ⟨2, 2⟩, ⟨3, 3⟩], false⟩ :=
  ⟨by decide, (C10_blank_click_noop ⟨[⟨0, 0⟩, ⟨1, 1⟩, ⟨2, 2⟩, ⟨3, 3⟩], false⟩ ⟨3, 3⟩
    (by decide)).2⟩

/-- C6: once the solved flag is set, the engine is terminally locked:
every further sequence of clicks leaves the state unchanged and still
solved. -/
theorem C6_solved_locked {N : Nat} (s : PuzzleState) (hs : s.isSolved = true)
    (clicks : List Tile) :
    List.foldl (handleTileClick N) s clicks = s ∧
    (List.foldl (handleTileClick N) s clicks).isSolved = true := by
  induction clicks with
  | nil => exact ⟨rfl, hs⟩
  | cons c cs ih =>
    rw [List.foldl_cons, handleTileClick_of_solved c hs]
    exact ih

/-- Witness for C6: two clicks on a solved 2×2 state. -/
theorem C6_solved_locked_witness :
    (⟨[⟨0, 0⟩, ⟨1, 1⟩, ⟨2, 2⟩, ⟨3, 3⟩], true⟩ : PuzzleState).isSolved = true ∧
    List.foldl (handleTileClick 2) ⟨[⟨0, 0⟩, ⟨1, 1⟩, ⟨2, 2⟩, ⟨3, 3⟩], true⟩
        [⟨1, 1⟩, ⟨2, 2⟩]
      = ⟨[⟨0, 0⟩, ⟨1, 1⟩, ⟨2, 2⟩, ⟨3, 3⟩], true⟩ :=
  ⟨rfl, (C6_solved_locked ⟨[⟨0, 0⟩, ⟨1, 1⟩, ⟨2, 2⟩, ⟨3, 3⟩], true⟩ rfl
    [⟨1, 1⟩, ⟨2, 2⟩]).1⟩

/-- C5: a click on a tile that is not adjacent to the blank's cell, on an
unsolved board, is a no-op with the solved flag still `false` — not an
error. -/
theorem C5_nonadjacent_noop {N : Nat} (s : PuzzleState) (clicked bt : Tile)
    (hs : s.isSolved = false)
    (hbt : s.tiles.find? (fun t => t.id == N * N - 1) = some bt)
    (hadj : clicked.currentPosition ∉ getValidMoves bt.currentPosition N) :
    handleTileClick N s clicked = s ∧
    (handleTileClick N s clicked).isSolved = false := by
  have h := handleTileClick_of_notAdj hs hbt hadj
  exact ⟨h, by rw [h, hs]⟩

/-- Witness for C5: the spec's own example — `N = 3`, blank at cell 4,
clicked tile at cell 0. -/
theorem C5_nonadjacent_noop_witness :
    (⟨[⟨0, 0⟩, ⟨1, 1⟩, ⟨2, 2⟩, ⟨3, 3⟩, ⟨4, 8⟩, ⟨5, 5⟩, ⟨6, 6⟩, ⟨7, 7⟩, ⟨8, 4⟩],
        false⟩ : PuzzleState).isSolved = false ∧
    (([⟨0, 0⟩, ⟨1, 1⟩, ⟨2, 2⟩, ⟨3, 3⟩, ⟨4, 8⟩, ⟨5, 5⟩, ⟨6, 6⟩, ⟨7, 7⟩, ⟨8, 4⟩] :
        Board).find? (fun t => t.id == 3 * 3 - 1) = some ⟨8, 4⟩) ∧
    (0 ∉ getValidMoves 4 3) ∧
    handleTileClick 3
        ⟨[⟨0, 0⟩, ⟨1, 1⟩, ⟨2, 2⟩, ⟨3, 3⟩, ⟨4, 8⟩, ⟨5, 5⟩, ⟨6, 6⟩, ⟨7, 7⟩, ⟨8, 4⟩],
          false⟩ ⟨0, 0⟩
      = ⟨[⟨0, 0⟩, ⟨1, 1⟩, ⟨2, 2⟩, ⟨3, 3⟩, ⟨4, 8⟩, ⟨5, 5⟩, ⟨6, 6⟩, ⟨7, 7⟩, ⟨8, 4⟩],
          false⟩ :=
  ⟨rfl, by decide, by decide,
    (C5_nonadjacent_noop
      ⟨[⟨0, 0⟩, ⟨1, 1⟩, ⟨2, 2⟩, ⟨3, 3⟩, ⟨4, 8⟩, ⟨5, 5⟩, ⟨6, 6⟩, ⟨7, 7⟩, ⟨8, 4⟩], false⟩
      ⟨0, 0⟩ ⟨8, 4⟩ rfl (by decide) (by decide)).1⟩

/-- C4: an accepted click on an unsolved board is an exact swap: the
clicked tile moves to the blank's former cell, the blank tile moves to the
clicked tile's former cell, every other tile keeps its `id` and
`currentPosition`, and no tile appears or disappears. -/
theorem C4_accepted_swap {N : Nat} (s : PuzzleState) (clicked bt : Tile)
    (hWF : WF N s.tiles) (hc : clicked ∈ s.tiles)
    (hs : s.isSolved = false)
    (hbt : s.tiles.find? (fun t => t.id == N * N - 1) = some bt)
    (hadj : clicked.currentPosition ∈ getValidMoves bt.currentPosition N) :
    (({ id := clicked.id, currentPosition := bt.currentPosition } : Tile)
        ∈ (handleTileClick N s clicked).tiles) ∧
    (({ id := N * N - 1, currentPosition := clicked.currentPosition } : Tile)
        ∈ (handleTileClick N s clicked).tiles) ∧
    (∀ t ∈ s.tiles, t.id ≠ clicked.id → t.id ≠ N * N - 1 →
      t ∈ (handleTileClick N s clicked).tiles) ∧
    (handleTileClick N s clicked).tiles.length = s.tiles.length := by
  have hbtmem : bt ∈ s.tiles := List.mem_of_find?_eq_some hbt
  have hbtid : bt.id = N * N - 1 := by simpa using List.find?_some hbt
  have hcb : clicked.id ≠ N * N - 1 := by
    intro h
    have hcbt : clicked = bt := id_inj hWF.id_nodup hc hbtmem (by rw [h, hbtid])
    rw [hcbt] at hadj
    exact self_not_mem_getValidMoves bt.currentPosition N hadj
  rw [handleTileClick_accepted hs hbt hadj]
  dsimp only
  unfold clickSwap
  refine ⟨?_, ?_, ?_, ?_⟩
  · refine List.mem_map.2 ⟨clicked, hc, ?_⟩
    rw [if_pos rfl]
  · refine List.mem_map.2 ⟨bt, hbtmem, ?_⟩
    have h1 : bt.id ≠ clicked.id := fun h => hcb (by rw [← h, hbtid])
    rw [if_neg h1, if_pos hbtid, hbtid]
  · intro t ht h1 h2
    refine List.mem_map.2 ⟨t, ht, ?_⟩
    rw [if_neg h1, if_neg h2]
  · exact List.length_map _ _

/-- Witness for C4: `N = 3`, blank at cell 4, clicked tile `id 1` at
cell 1 — the spec's own example. -/
theorem C4_accepted_swap_witness :
    WF 3 ([⟨0, 0⟩, ⟨1, 1⟩, ⟨2, 2⟩, ⟨3, 3⟩, ⟨4, 8⟩, ⟨5, 5⟩, ⟨6, 6⟩, ⟨7, 7⟩, ⟨8, 4⟩] :
      Board) ∧
    (1 : Nat) ∈ getValidMoves 4 3 ∧
    (({ id := 1, currentPosition := 4 } : Tile)
        ∈ (handleTileClick 3
            ⟨[⟨0, 0⟩, ⟨1, 1⟩, ⟨2, 2⟩, ⟨3, 3⟩, ⟨4, 8⟩, ⟨5, 5⟩, ⟨6, 6⟩, ⟨7, 7⟩, ⟨8, 4⟩],
              false⟩ ⟨1, 1⟩).tiles) :=
  ⟨⟨by decide, by decide⟩, by decide,
    (C4_accepted_swap
      ⟨[⟨0, 0⟩, ⟨1, 1⟩, ⟨2, 2⟩, ⟨3, 3⟩, ⟨4, 8⟩, ⟨5, 5⟩, ⟨6, 6⟩, ⟨7, 7⟩, ⟨8, 4⟩], false⟩
      ⟨1, 1⟩ ⟨8, 4⟩ ⟨by decide, by decide⟩ (by decide) rfl (by decide) (by decide)).1⟩

/-- C2: permutation invariant: after `initializePuzzle` and after every
`handleTileClick` on a board tile (accepted or rejected), the
`currentPosition` values across the N² tiles are a permutation of
`0 .. N²-1`. -/
theorem C2_permutation_invariant {N : Nat} {choice : Nat → Nat} {s : PuzzleState}
    (hN : 2 ≤ N) (h : EReach N choice s) :
    (s.tiles.map Tile.currentPosition).Perm (List.range (N * N)) :=
  (EReach_WF hN h).2

/-- Witness for C2: the freshly initialized 2×2 board. -/
theorem C2_permutation_invariant_witness :
    2 ≤ 2 ∧
    (((initializePuzzle 2 fun _ => 0).tiles.map Tile.currentPosition).Perm
      (List.range (2 * 2))) :=
  ⟨by decide, C2_permutation_invariant (by decide) EReach.init⟩

/-- C1: any board produced by `initializePuzzle` can be brought back to the
identity arrangement (every tile's `currentPosition` equal to its `id`) by
a finite sequence of clicks, each legal per `getValidMoves` from the blank
tile's current cell. -/
theorem C1_initialize_solvable {N : Nat} (choice : Nat → Nat) (hN : 2 ≤ N) :
    CanSolve N (initializePuzzle N choice).tiles := by
  rw [initializePuzzle_tiles]
  exact canSolve_shuffle hN choice

/-- Witness for C1: the freshly initialized 2×2 board is solvable. -/
theorem C1_initialize_solvable_witness :
    2 ≤ 2 ∧ CanSolve 2 (initializePuzzle 2 fun _ => 0).tiles :=
  ⟨by decide, C1_initialize_solvable (fun _ => 0) (by decide)⟩

/-! ### The shuffle as a trace of legal moves (for C9) -/

/-- One shuffle move as the spec describes it: a cell among the valid
moves of the tracked blank cell is chosen, the tile occupying the blank's
cell and the tile occupying the chosen cell exchange their
`currentPosition` values, and the tracker advances to the chosen cell. -/
def SpecShuffleMove (N : Nat) (st st' : Board × Nat) : Prop :=
  st'.2 ∈ getValidMoves st.2 N ∧ st'.1 = swapPosMap st.1 st.2 st'.2

theorem shuffleAux_succ (N : Nat) (choice : Nat → Nat) (i n : Nat) (b : Board)
    (bp : Nat) :
    shuffleAux N choice i (n + 1) (b, bp)
      = shuffleAux N choice (i + 1) n
          (shuffleStep b bp
            ((getValidMoves bp N).getD (choice i % (getValidMoves bp N).length) 0),
            (getValidMoves bp N).getD (choice i % (getValidMoves bp N).length) 0) :=
  rfl

theorem shuffleAux_trace {N : Nat} (hN : 2 ≤ N) (choice : Nat → Nat) :
    ∀ steps i st, ShInv N st →
      ∃ g : Nat → Board × Nat, g 0 = st ∧
        (∀ k, k < steps → SpecShuffleMove N (g k) (g (k + 1))) ∧
        g steps = shuffleAux N choice i steps st := by
  intro steps
  induction steps with
  | zero =>
    intro i st h
    exact ⟨fun _ => st, rfl, fun k hk => absurd hk (by omega), rfl⟩
  | succ n ih =>
    intro i st h
    obtain ⟨b, bp⟩ := st
    have hlen : 0 < (getValidMoves bp N).length := getValidMoves_length_pos hN h.2.1
    have hmv : (getValidMoves bp N).getD (choice i % (getValidMoves bp N).length) 0
        ∈ getValidMoves bp N := getD_mem (Nat.mod_lt _ hlen) 0
    have hs := shInv_step h hmv
    obtain ⟨g, hg0, hgstep, hgend⟩ := ih (i + 1) _ hs.2
    refine ⟨fun k => if k = 0 then (b, bp) else g (k - 1), rfl, ?_, ?_⟩
    · intro k hk
      cases k with
      | zero =>
        show SpecShuffleMove N (if (0 : Nat) = 0 then (b, bp) else g (0 - 1))
          (if (1 : Nat) = 0 then (b, bp) else g (1 - 1))
        rw [if_pos rfl, if_neg (by omega)]
        show SpecShuffleMove N (b, bp) (g 0)
        rw [hg0]
        exact ⟨hmv, hs.1⟩
      | succ m =>
        show SpecShuffleMove N (if m + 1 = 0 then (b, bp) else g (m + 1 - 1))
          (if m + 2 = 0 then (b, bp) else g (m + 2 - 1))
        rw [if_neg (by omega), if_neg (by omega)]
        exact hgstep m (by omega)
    · show (if n + 1 = 0 then (b, bp) else g (n + 1 - 1))
        = shuffleAux N choice i (n + 1) (b, bp)
      rw [if_neg (by omega), shuffleAux_succ]
      exact hgend

/-- C9: `initializePuzzle` first constructs the identity board of N² tiles
(ids and cells both enumerate `0 .. N²-1`, each tile on its home cell),
then performs exactly 100 shuffle moves starting with the blank tracked at
its home cell `N²-1`, each move exchanging the blank's cell with a chosen
adjacent cell and advancing the tracker to it, and resets the solved flag
to `false`. -/
theorem C9_initialize_spec {N : Nat} (choice : Nat → Nat) (hN : 2 ≤ N) :
    ∃ g : Nat → Board × Nat,
      g 0 = (initialTiles N, N * N - 1) ∧
      (g 0).1.map Tile.id = List.range (N * N) ∧
      (g 0).1.map Tile.currentPosition = List.range (N * N) ∧
      (∀ t ∈ (g 0).1, t.currentPosition = t.id) ∧
      (∀ k, k < 100 → SpecShuffleMove N (g k) (g (k + 1))) ∧
      (initializePuzzle N choice).tiles = (g 100).1 ∧
      (initializePuzzle N choice).isSolved = false := by
  obtain ⟨g, hg0, hgs, hge⟩ := shuffleAux_trace hN choice 100 0 _ (shInv_init hN)
  refine ⟨g, hg0, ?_, ?_, ?_, hgs, ?_, initializePuzzle_isSolved N choice⟩
  · rw [hg0]; exact initialTiles_map_id N
  · rw [hg0]; exact initialTiles_map_pos N
  · rw [hg0]; exact initialTiles_isIdentity N
  · rw [initializePuzzle_tiles, shufflePuzzle_eq, hge]

/-- Witness for C9 at `N = 2`. -/
theorem C9_initialize_spec_witness :
    2 ≤ 2 ∧
    ∃ g : Nat → Board × Nat,
      g 0 = (initialTiles 2, 2 * 2 - 1) ∧
      (g 0).1.map Tile.id = List.range (2 * 2) ∧
      (g 0).1.map Tile.currentPosition = List.range (2 * 2) ∧
      (∀ t ∈ (g 0).1, t.currentPosition = t.id) ∧
      (∀ k, k < 100 → SpecShuffleMove 2 (g k) (g (k + 1))) ∧
      (initializePuzzle 2 fun _ => 0).tiles = (g 100).1 ∧
      (initializePuzzle 2 fun _ => 0).isSolved = false :=
  ⟨by decide, C9_initialize_spec (fun _ => 0) (by decide)⟩

/-- C8: in the `SlidingPuzzle` engine of `src/unnamed/part_001`, an
accepted click increments the move counter by exactly one, a rejected
click (already solved, or non-adjacent) leaves it unchanged, and the
counter feeds no engine decision: the board and the solved flag after a
click do not depend on the counter's value. -/
theorem C8_move_counter {N : Nat} (s : SPState) (clicked bt : Tile)
    (hbt : s.tiles.find? (fun t => t.id == N * N - 1) = some bt) :
    ((s.isSolved = false ∧
        clicked.currentPosition ∈ getValidMoves bt.currentPosition N) →
      (handleTileClickSP N s clicked).moves = s.moves + 1) ∧
    ((s.isSolved = true ∨
        clicked.currentPosition ∉ getValidMoves bt.currentPosition N) →
      (handleTileClickSP N s clicked).moves = s.moves) ∧
    (∀ m : Nat,
      (handleTileClickSP N { s with moves := m } clicked).tiles
          = (handleTileClickSP N s clicked).tiles ∧
      (handleTileClickSP N { s with moves := m } clicked).isSolved
          = (handleTileClickSP N s clicked).isSolved) := by
  refine ⟨?_, ?_, ?_⟩
  · rintro ⟨hs, hadj⟩
    rw [handleTileClickSP_accepted hs hbt hadj]
  · rintro (hs | hadj)
    · rw [handleTileClickSP_of_solved clicked hs]
    · cases hs : s.isSolved with
      | true => rw [handleTileClickSP_of_solved clicked hs]
      | false => rw [handleTileClickSP_of_notAdj hs hbt hadj]
  · intro m
    cases hs : s.isSolved with
    | true =>
      rw [handleTileClickSP_of_solved clicked hs,
        handleTileClickSP_of_solved
          (s := { tiles := s.tiles, isSolved := true, moves := m }) clicked rfl]
      exact ⟨rfl, hs.symm⟩
    | false =>
      by_cases hadj : clicked.currentPosition ∈ getValidMoves bt.currentPosition N
      · rw [handleTileClickSP_accepted hs hbt hadj,
          handleTileClickSP_accepted
            (s := { tiles := s.tiles, isSolved := false, moves := m }) rfl hbt hadj]
        exact ⟨rfl, rfl⟩
      · rw [handleTileClickSP_of_notAdj hs hbt hadj,
          handleTileClickSP_of_notAdj
            (s := { tiles := s.tiles, isSolved := false, moves := m }) rfl hbt hadj]
        exact ⟨rfl, hs.symm⟩

/-- Witness for C8: accepted click on the 2×2 board with blank at its home
cell increments the counter from 5 to 6. -/
theorem C8_move_counter_witness :
    (([⟨0, 0⟩, ⟨1, 1⟩, ⟨2, 2⟩, ⟨3, 3⟩] : Board).find?
        (fun t => t.id == 2 * 2 - 1) = some ⟨3, 3⟩) ∧
    ((⟨[⟨0, 0⟩, ⟨1, 1⟩, ⟨2, 2⟩, ⟨3, 3⟩], false, 5⟩ : SPState).isSolved = false ∧
      (⟨1, 1⟩ : Tile).currentPosition ∈ getValidMoves 3 2) ∧
    (handleTileClickSP 2 ⟨[⟨0, 0⟩, ⟨1, 1⟩, ⟨2, 2⟩, ⟨3, 3⟩], false, 5⟩ ⟨1, 1⟩).moves
      = 5 + 1 :=
  ⟨by decide, ⟨rfl, by decide⟩,
    (C8_move_counter ⟨[⟨0, 0⟩, ⟨1, 1⟩, ⟨2, 2⟩, ⟨3, 3⟩], false, 5⟩ ⟨1, 1⟩ ⟨3, 3⟩
      (by decide)).1 ⟨rfl, by decide⟩⟩

end SlidingPuzzle
